import Mathlib

/-!
Verification of the MHD_Nodet training toolkit (node_toolkit/node_utils.py and
the node_pipline training scripts) through a shallow embedding in Lean 4.
Machine reals are embedded as rationals, Python lists as Lean lists, dicts as
association lists in insertion order, and exceptions as `Except`.
-/

namespace MHDNodet

/-! ### Definitions -/

/-- Embeds `WarmupCosineAnnealingLR.get_lr` (node_toolkit/node_utils.py,
lines 40-44).  `baseLrs` is `self.base_lrs`, captured from the optimizer's
parameter groups at construction; `warmupEpochs` is `self.warmup_epochs`;
`lastEpoch` is `self.last_epoch`.  The non-warmup branch delegates to the
parent `CosineAnnealingLR.get_lr`, which lives in PyTorch, not in this
repository, so it is abstracted as the function `parentGetLr`. -/
def WarmupCosineAnnealingLR.get_lr (baseLrs : List ℚ) (warmupEpochs : ℕ)
    (parentGetLr : ℤ → List ℚ) (lastEpoch : ℤ) : List ℚ :=
  if lastEpoch < (warmupEpochs : ℤ) then
    baseLrs.map (fun baseLr => baseLr * (((lastEpoch : ℚ) + 1) / (warmupEpochs : ℚ)))
  else
    parentGetLr lastEpoch

/-- Embeds `NodeDataset.set_batch_seed` as used at the pipeline call sites:
it stores the given seed on one dataset.  The dataset class itself
(node_toolkit/node_dataset.py) is not among the provided sources; for the
seeding claim only the stored batch seed matters, so the family of datasets
is represented by the map from node to its current batch seed (`none` before
the first assignment). -/
def set_batch_seed {ν : Type} [DecidableEq ν] (node : ν) (seed : ℕ)
    (seeds : ν → Option ℕ) : ν → Option ℕ :=
  fun m => if m = node then some seed else seeds m

/-- The batch seeds currently held by the training datasets and by the
validation datasets, one entry per node. -/
structure SeedState (ν : Type) where
  trainSeed : ν → Option ℕ
  valSeed : ν → Option ℕ

/-- Embeds the body of the per-batch seeding loop (node_cls_train.py lines
491-497; node_seg_train.py lines 364-371): one `batch_seed` is applied via
`set_batch_seed` to every training dataset and then to every validation
dataset. -/
def seedOneBatch {ν : Type} [DecidableEq ν] (trainNodes valNodes : List ν)
    (batchSeed : ℕ) (st : SeedState ν) : SeedState ν :=
  { trainSeed := trainNodes.foldl (fun f n => set_batch_seed n batchSeed f) st.trainSeed
    valSeed := valNodes.foldl (fun f n => set_batch_seed n batchSeed f) st.valSeed }

/-- Embeds the seeding loop over `batch_idx in range(len(dataloaders_train[node]))`:
`batchSeeds` is the array `batch_seeds` drawn from the NumPy generator seeded
with `seed + epoch`. -/
def seedLoop {ν : Type} [DecidableEq ν] (trainNodes valNodes : List ν)
    (batchSeeds : List ℕ) (st : SeedState ν) : SeedState ν :=
  batchSeeds.foldl (fun st s => seedOneBatch trainNodes valNodes s st) st

/-- One entry of a task's `"loss"` list in `task_configs`: its `weight` and
the numeric per-batch loss value
`fn(outputs[src_idx], outputs[target_idx], **params).item()` as a function of
the batch index.  The tensors and loss functions live in PyTorch, so the
recorded value appended to `task_losses[task][...]` is abstracted by
`lossVal`. -/
structure LossCfg where
  weight : ℚ
  lossVal : ℕ → ℚ

/-- One task of `task_configs`: the list of its loss configurations. -/
structure TaskCfg where
  lossCfgs : List LossCfg

/-- Embeds the accumulation of `task_loss` for one task in one batch
(node_utils.py lines 109-119 / 245-255): `task_loss += weight * loss`. -/
def batchTaskLoss (t : TaskCfg) (b : ℕ) : ℚ :=
  (t.lossCfgs.map (fun c => c.weight * c.lossVal b)).sum

/-- Embeds `total_loss` for one batch (lines 93-120 / 229-256):
`total_loss += task_loss` over the tasks. -/
def batchTotalLoss (tasks : List TaskCfg) (b : ℕ) : ℚ :=
  (tasks.map (fun t => batchTaskLoss t b)).sum

/-- Embeds `running_loss` after the batch loop (lines 125 / 258):
`running_loss += total_loss.item()` over all batches. -/
def running_loss (tasks : List TaskCfg) (numBatches : ℕ) : ℚ :=
  ((List.range numBatches).map (batchTotalLoss tasks)).sum

/-- Embeds `avg_loss = running_loss / num_batches` (lines 127 / 260). -/
def avg_loss (tasks : List TaskCfg) (numBatches : ℕ) : ℚ :=
  running_loss tasks numBatches / numBatches

/-- Embeds `np.mean` of a Python list of floats: sum divided by length. -/
def npMean (l : List ℚ) : ℚ := l.sum / l.length

/-- The list `task_losses[task][(fn.__name__, src_node, target_node)]` after
the batch loop: one appended value per batch. -/
def lossValues (c : LossCfg) (numBatches : ℕ) : List ℚ :=
  (List.range numBatches).map c.lossVal

/-- Embeds one entry of `task_losses_avg` (lines 128-133 / 261-266):
`sum(np.mean(task_losses[task][key]) * loss_cfg["weight"] for loss_cfg ...)`. -/
def task_losses_avg (t : TaskCfg) (numBatches : ℕ) : ℚ :=
  (t.lossCfgs.map (fun c => npMean (lossValues c numBatches) * c.weight)).sum

/-- The sum of `task_losses_avg[task]` over all tasks. -/
def sumTaskLossesAvg (tasks : List TaskCfg) (numBatches : ℕ) : ℚ :=
  (tasks.map (fun t => task_losses_avg t numBatches)).sum

/-- The top-level names bound in module `node_toolkit.node_utils`
(node_utils.py): the imports of lines 18-23 and the definitions of lines
25-46 (`logging.basicConfig` returns nothing bindable). -/
def nodeUtilsNames : List String :=
  ["torch", "optim", "np", "tabulate", "logging", "Counter",
   "logger", "device", "WarmupCosineAnnealingLR", "train", "validate"]

/-- Embeds Python `from M import a, b, ...`: the names are looked up in
order in module `M`; the first name missing from the module raises
`ImportError`. -/
def fromImport (moduleNames requested : List String) : Except String Unit :=
  match requested.filter (fun n => !(moduleNames.contains n)) with
  | [] => Except.ok ()
  | n :: _ => Except.error ("ImportError: cannot import name " ++ n)

/-- The names requested from `node_toolkit.node_utils` by
node_pipline/node_cls_train_poly_unicomnet.py, line 13. -/
def polyUnicomnetRequestedNames : List String :=
  ["train", "validate", "CosineAnnealingLR", "PolynomialLR", "ReduceLROnPlateau"]

/-- Embeds the top level of node_cls_train_poly_unicomnet.py: the import of
line 13 executes before `main` is defined (line 22) or called (line 738), so
module evaluation either raises at the import or yields a module whose
`main` training entry point could then run. -/
def polyUnicomnetModuleInit : Except String String :=
  match fromImport nodeUtilsNames polyUnicomnetRequestedNames with
  | Except.error e => Except.error e
  | Except.ok () => Except.ok "main"

/-- Embeds Python set equality `set(a) == set(b)` on case-ID lists:
mutual containment. -/
def pySetEq (a b : List String) : Bool :=
  a.all (fun x => b.contains x) && b.all (fun x => a.contains x)

/-- Embeds the consistency test of node_utils.py lines 85-86 / 221-222:
`all(set(cids) == set(batch_case_ids[0]) for cids in batch_case_ids)`. -/
def batchConsistent (batchCaseIds : List (List String)) : Bool :=
  match batchCaseIds with
  | [] => true
  | c0 :: _ => batchCaseIds.all (fun c => pySetEq c c0)

/-- Embeds the batch loop's handling of case-ID consistency in `train`
(node_utils.py lines 85-88 then 90-125) and `validate` (lines 221-224 then
226-258): per batch, the nodes' case-ID lists are compared; an inconsistent
batch only appends a `logger.warning` entry (recorded here by its batch
index, second component) and the batch is still processed - forward pass,
loss, and in `train` the optimizer step - counted in the first component. -/
def epochCaseIdRun (batches : List (List (List String))) : ℕ × List ℕ :=
  batches.enum.foldl
    (fun acc b =>
      (acc.1 + 1, if batchConsistent b.2 then acc.2 else acc.2 ++ [b.1]))
    (0, [])

/-- Embeds the per-batch `next(data_iterators[node])` calls of the batch body
(`train` lines 70-83, `validate` lines 206-219): with `dls` the dataloaders
in dict order, each modelled by its list of batches, batch `b` succeeds
exactly when every node still has a `b`-th batch; otherwise `next` raises an
uncaught `StopIteration`.  Counts completed batches (in `train`, optimizer
steps, line 124) in the first component; the second is `false` when the loop
died part-way. -/
def trainRunBatches {ν β : Type} (dls : List (ν × List β)) (b : ℕ) :
    (remaining : ℕ) → ℕ × Bool
  | 0 => (0, true)
  | r + 1 =>
    if dls.all (fun nd => decide (b < nd.2.length)) then
      ((trainRunBatches dls (b + 1) r).1 + 1, (trainRunBatches dls (b + 1) r).2)
    else (0, false)

/-- Embeds the epoch loop skeleton of `train` (node_utils.py lines 62-65)
and `validate` (lines 199-202): `num_batches` is the length of the
first-iterated dataloader, `len(next(iter(data_iterators.values())))`
(raising `StopIteration` on an empty dataloader dict), and the loop runs
`num_batches` iterations of the batch body. -/
def trainEpochBatches {ν β : Type} (dls : List (ν × List β)) : ℕ × Bool :=
  match dls with
  | [] => (0, false)
  | d0 :: _ => trainRunBatches dls 0 d0.2.length

/-- A Python string, modelled as its list of characters (Lean's `String`
primitives do not reduce in the kernel, so file names are embedded at the
character level; Python string comparison and slicing are code-point
operations on exactly this list). -/
def PyStr : Type := List Char

/-- Embeds Python string `<=`: code-point lexicographic comparison. -/
def pyStrLe : List Char → List Char → Bool
  | [], _ => true
  | _ :: _, [] => false
  | c :: cs, d :: ds => if c = d then pyStrLe cs ds else decide (c < d)

/-- The `≤` order on Python strings, as a relation. -/
def pleRel (a b : List Char) : Prop := pyStrLe a b = true

instance : DecidableRel pleRel := fun a b =>
  instDecidableEqBool (pyStrLe a b) true

/-- Embeds Python `s.startswith(p)`. -/
def pyStartsWith (s p : List Char) : Bool := p.isPrefixOf s

/-- Embeds Python `s.endswith(p)`. -/
def pyEndsWith (s p : List Char) : Bool := p.isSuffixOf s

/-- Embeds Python `s.split(c)` for a one-character separator: cuts at every
occurrence, keeping empty fields. -/
def pySplitOn (sep : Char) (s : List Char) : List (List Char) :=
  s.foldr
    (fun c acc =>
      match acc with
      | [] => [[]]
      | a :: as => if c = sep then [] :: a :: as else (c :: a) :: as)
    [[]]

/-- Embeds Python `sorted` on a list of strings (code-point order; for this
total order the sorted permutation is unique, so a concrete insertion sort
is faithful). -/
def pySorted (l : List (List Char)) : List (List Char) :=
  List.insertionSort pleRel l

/-- Embeds `get_case_ids` of node_cls_train.py (lines 360-367): among the
directory's files, those named `case_...` and ending in `filename`
contribute their second underscore-separated field
(`file.split(chr(95))[1]`); the result is sorted. -/
def cls_get_case_ids (allFiles : List (List Char)) (filename : List Char) :
    List (List Char) :=
  pySorted ((allFiles.filter
      (fun f => pyStartsWith f "case_".toList && pyEndsWith f filename)).map
    (fun f => (pySplitOn '_' f).getD 1 []))

/-- Embeds the classification pipeline's aggregation (node_cls_train.py
lines 377-390) for one directory: the union over the node filenames of the
extracted case IDs, sorted; `ValueError` exactly when the union is empty. -/
def clsCollectCaseIds (allFiles : List (List Char))
    (filenames : List (List Char)) : Except String (List (List Char)) :=
  if (pySorted (((filenames.map
        (fun fn => cls_get_case_ids allFiles fn)).flatten).dedup)).isEmpty then
    Except.error "No case_ids found in train directory!"
  else
    Except.ok (pySorted (((filenames.map
      (fun fn => cls_get_case_ids allFiles fn)).flatten).dedup))

/-- Embeds `get_case_ids` of node_seg_train.py (lines 209-216): files named
`case_...` and ending in an underscore, the suffix and the extension
contribute their second underscore-separated field, collected as a set and
sorted. -/
def seg_get_case_ids (allFiles : List (List Char)) (suffix fileExt : List Char) :
    List (List Char) :=
  pySorted (((allFiles.filter
      (fun f => pyStartsWith f "case_".toList
        && pyEndsWith f ('_' :: suffix ++ fileExt))).map
    (fun f => (pySplitOn '_' f).getD 1 [])).dedup)

/-- Embeds line 229/230 of node_seg_train.py:
`get_case_ids(dir, suffix, nii) or get_case_ids(dir, suffix, csv)` - Python
`or` falls back to the `.csv` extension when the `.nii.gz` list is empty. -/
def seg_get_case_ids_or (allFiles : List (List Char)) (suffix : List Char) :
    List (List Char) :=
  if (seg_get_case_ids allFiles suffix ".nii.gz".toList).isEmpty then
    seg_get_case_ids allFiles suffix ".csv".toList
  else seg_get_case_ids allFiles suffix ".nii.gz".toList

/-- Embeds Python `s.intersection(t)` on case-ID collections. -/
def listInter (a b : List (List Char)) : List (List Char) :=
  a.filter (fun x => b.contains x)

/-- Embeds the segmentation pipeline's aggregation (node_seg_train.py lines
226-240) for one directory: the intersection over the node suffixes of the
extracted case-ID sets; `ValueError` exactly when the intersection is empty,
otherwise the sorted common IDs.  (`set.intersection` of zero sets is a
`TypeError`; the pipeline always has at least one suffix.) -/
def segCollectCaseIds (allFiles : List (List Char))
    (suffixes : List (List Char)) : Except String (List (List Char)) :=
  match suffixes.map (fun s => seg_get_case_ids_or allFiles s) with
  | [] => Except.error "TypeError: intersection of no sets"
  | s0 :: rest =>
    if (rest.foldl listInter s0).isEmpty then
      Except.error "No common case_ids found in train directory!"
    else Except.ok (pySorted (rest.foldl listInter s0))

/-- The side effects relevant to `validate` (node_utils.py lines 182-313):
`model.eval()`, the forward pass, per-batch loss evaluation, final metric
evaluation, a backward pass, an optimizer step, and any in-place parameter
write. -/
inductive PyEff where
  | evalMode
  | forwardPass
  | lossCompute
  | metricCompute
  | backwardStep
  | optimStep
  | paramWrite
  deriving DecidableEq

/-- Embeds the order of effects of one `validate` call, each tagged with
whether gradient tracking is enabled there (`true` = outside
`torch.no_grad`).  Line 183 `model.eval()`; lines 198-258 the batch loop
inside `with torch.no_grad():` - per batch one forward pass (line 226) and
one loss evaluation per loss config (line 253); lines 268-280, after the
`no_grad` block has closed, one metric evaluation per metric config
(line 278).  `validate` contains no backward pass, optimizer step (it does
not even receive an optimizer) or parameter write. -/
def validateEffectTrace (numBatches numLossCfgs numMetrics : ℕ) :
    List (PyEff × Bool) :=
  (PyEff.evalMode, true)
    :: ((List.range numBatches).map (fun _ =>
          (PyEff.forwardPass, false)
            :: (List.range numLossCfgs).map
                (fun _ => (PyEff.lossCompute, false)))).flatten
    ++ (List.range numMetrics).map (fun _ => (PyEff.metricCompute, true))

/-- Whether an effect can mutate the model parameters. -/
def effWritesParams : PyEff → Bool
  | PyEff.optimStep => true
  | PyEff.paramWrite => true
  | PyEff.backwardStep => true
  | _ => false

/-- Runs an effect trace over a model-parameter state: an effect that can
write parameters applies an arbitrary mutation `f`, every other effect
leaves the parameters untouched. -/
def runParams {α : Type} (f : PyEff → α → α) (p : α)
    (trace : List (PyEff × Bool)) : α :=
  trace.foldl (fun q ev => if effWritesParams ev.1 then f ev.1 q else q) p

/-- Embeds `best_val_loss`, `epochs_no_improve` and the checkpoint on disk
across the epoch loop of node_cls_train.py (lines 481-524) and
node_seg_train.py (lines 353-396).  `best = none` models the initial
floating-point infinity, below which every finite loss lies; `ckpt` records
the epoch whose weights were last saved. -/
structure EarlyStopState where
  best : Option ℚ
  noImprove : ℕ
  ckpt : Option ℕ

/-- The state before the epoch loop: `best_val_loss = inf`,
`epochs_no_improve = 0`, nothing saved yet. -/
def initialEarlyStop : EarlyStopState := ⟨none, 0, none⟩

/-- Embeds `val_loss < best_val_loss` (any float is below infinity). -/
def isImprovement (best : Option ℚ) (v : ℚ) : Bool :=
  match best with
  | none => true
  | some b => decide (v < b)

/-- Embeds the validation branch of the epoch loop (node_cls_train.py lines
512-524; node_seg_train.py lines 386-396): on improvement the best loss is
updated, the no-improvement counter resets and the weights are saved
(classification: every sub-network in `save_hdnet`; segmentation:
`model_best.pth` - both modelled as checkpointing the current epoch);
otherwise `epochs_no_improve += validation_interval` and the loop breaks
(second component `true`) once `epochs_no_improve >= patience`. -/
def validationStep (valLoss : ℕ → ℚ) (patience interval : ℕ) (epoch : ℕ)
    (st : EarlyStopState) : EarlyStopState × Bool :=
  if isImprovement st.best (valLoss epoch) then
    ({ best := some (valLoss epoch), noImprove := 0, ckpt := some epoch }, false)
  else
    ({ st with noImprove := st.noImprove + interval },
     decide (patience ≤ st.noImprove + interval))

/-- Embeds the epoch loop `for epoch in range(num_epochs)` with validation
every `(epoch + 1) % validation_interval == 0` epochs; returns the final
early-stopping state and the number of epochs actually run. -/
def epochLoop (valLoss : ℕ → ℚ) (patience interval : ℕ) :
    ℕ → ℕ → EarlyStopState → EarlyStopState × ℕ
  | 0, epoch, st => (st, epoch)
  | fuel + 1, epoch, st =>
    if (epoch + 1) % interval = 0 then
      if (validationStep valLoss patience interval epoch st).2 then
        ((validationStep valLoss patience interval epoch st).1, epoch + 1)
      else
        epochLoop valLoss patience interval fuel (epoch + 1)
          (validationStep valLoss patience interval epoch st).1
    else epochLoop valLoss patience interval fuel (epoch + 1) st

/-- Embeds a full training run of `num_epochs` epochs from the initial
early-stopping state. -/
def runTraining (valLoss : ℕ → ℚ) (patience interval numEpochs : ℕ) :
    EarlyStopState × ℕ :=
  epochLoop valLoss patience interval numEpochs 0 initialEarlyStop

/-- A concrete validation-loss sequence used to evaluate the early-stopping
loop: 10, 5, then constantly 7. -/
def exampleValLoss (i : ℕ) : ℚ :=
  if i = 0 then 10 else if i = 1 then 5 else 7

/-- Modelled from the spec: node_toolkit/node_net.py (the HDNet/MHDNet
implementation) is not among the provided sources.  A hyperedge is "a
grouped convolutional transform with multiple sources/destinations": it
reads the feature tensors of its source nodes and produces the tensors of
its destination nodes; the tensor computation itself lives in PyTorch and is
abstracted as `transform`. -/
structure Hyperedge (ν α : Type) where
  src_nodes : List ν
  dst_nodes : List ν
  transform : List α → List α

/-- Modelled from the spec (node_toolkit/node_net.py missing): an HDNet
configuration - "a declarative configuration format (nodes = feature
tensors, hyperedges = grouped convolutional transforms ...)" with the
in-node and out-node lists. -/
structure HDNetCfg (ν α : Type) where
  hyperedges : List (Hyperedge ν α)
  in_nodes : List ν
  out_nodes : List ν

/-- Writes tensor values to nodes, later pairs overriding earlier ones.  The
node state maps a node to its computed tensor, `none` while uncomputed. -/
def writeNodes {ν α : Type} [DecidableEq ν] (st : ν → Option α)
    (pairs : List (ν × α)) : ν → Option α :=
  pairs.foldl (fun f p => fun m => if m = p.1 then some p.2 else f m) st

/-- Modelled from the spec (node_toolkit/node_net.py missing): a hyperedge
may fire once all of its source nodes have been computed. -/
def fireableB {ν α : Type} (st : ν → Option α) (e : Hyperedge ν α) : Bool :=
  e.src_nodes.all (fun n => (st n).isSome)

/-- Modelled from the spec (node_toolkit/node_net.py missing): firing a
hyperedge applies its transform to the source tensors and stores the
results at its destination nodes. -/
def fireEdge {ν α : Type} [DecidableEq ν] [Inhabited α] (st : ν → Option α)
    (e : Hyperedge ν α) : ν → Option α :=
  writeNodes st (e.dst_nodes.zip
    (e.transform (e.src_nodes.map (fun n => (st n).getD default))))

/-- Picks the first pending hyperedge whose sources are all computed,
returning it with the remaining pending list. -/
def pickFireable {ν α : Type} (st : ν → Option α) :
    List (Hyperedge ν α) → Option (Hyperedge ν α × List (Hyperedge ν α))
  | [] => none
  | e :: rest =>
    if fireableB st e then some (e, rest)
    else
      match pickFireable st rest with
      | some (e2, rest2) => some (e2, e :: rest2)
      | none => none

/-- Modelled from the spec (node_toolkit/node_net.py missing): the
topological scheduler - repeatedly fire some pending hyperedge all of whose
sources are computed, until none is ready; returns the firing order and the
final node state.  The fuel (initially the number of hyperedges) bounds the
rounds; each round consumes one pending edge. -/
def scheduleAux {ν α : Type} [DecidableEq ν] [Inhabited α] :
    ℕ → List (Hyperedge ν α) → (ν → Option α) →
      List (Hyperedge ν α) × (ν → Option α)
  | 0, _, st => ([], st)
  | fuel + 1, pending, st =>
    match pickFireable st pending with
    | none => ([], st)
    | some (e, rest) =>
      ((scheduleAux fuel rest (fireEdge st e)).1.cons e,
       (scheduleAux fuel rest (fireEdge st e)).2)

/-- The node state before scheduling: the input tensors assigned to the
in-nodes, every other node uncomputed. -/
def hdInitState {ν α : Type} [DecidableEq ν] (cfg : HDNetCfg ν α)
    (inputs : List α) : ν → Option α :=
  writeNodes (fun _ => none) (cfg.in_nodes.zip inputs)

/-- Modelled from the spec (node_toolkit/node_net.py missing): an HDNet
forward pass - assign the inputs to the in-nodes, run the topological
schedule, and read the out-nodes in the order of the out-node list;
returns the firing order together with the outputs. -/
def hdForward {ν α : Type} [DecidableEq ν] [Inhabited α] (cfg : HDNetCfg ν α)
    (inputs : List α) : List (Hyperedge ν α) × List (Option α) :=
  ((scheduleAux cfg.hyperedges.length cfg.hyperedges (hdInitState cfg inputs)).1,
   cfg.out_nodes.map
     (scheduleAux cfg.hyperedges.length cfg.hyperedges (hdInitState cfg inputs)).2)

/-- Modelled from the spec (node_toolkit/node_net.py missing): the global
node that a sub-network node is identified with, looked up in the global
`node_mapping` list of (global node, sub-network name, sub-node) triples. -/
def globalOf {γ ν : Type} [DecidableEq ν] (mapping : List (γ × String × ν))
    (sub : String) (n : ν) : Option γ :=
  (mapping.find? (fun t => decide (t.2.1 = sub) && decide (t.2.2 = n))).map
    (fun t => t.1)

/-- Modelled from the spec (node_toolkit/node_net.py missing): gluing one
sub-network hyperedge into the global graph - every endpoint is replaced by
the global node it is mapped to, so all sub-network nodes mapped to one
global node share that node's tensor. -/
def glueEdge {γ ν α : Type} [DecidableEq ν] [Inhabited γ]
    (mapping : List (γ × String × ν)) (sub : String) (e : Hyperedge ν α) :
    Hyperedge γ α :=
  { src_nodes := e.src_nodes.map (fun n => (globalOf mapping sub n).getD default)
    dst_nodes := e.dst_nodes.map (fun n => (globalOf mapping sub n).getD default)
    transform := e.transform }

/-- Modelled from the spec (node_toolkit/node_net.py missing): the
"cross-subnetwork composition via a global node-mapping/gluing layer" -
the MHDNet of named sub-networks is the HDNet over global nodes whose
hyperedges are all sub-network hyperedges with endpoints identified through
`node_mapping`. -/
def mhdGlue {γ ν α : Type} [DecidableEq ν] [Inhabited γ]
    (subNetworks : List (String × HDNetCfg ν α))
    (node_mapping : List (γ × String × ν)) (in_nodes out_nodes : List γ) :
    HDNetCfg γ α :=
  { hyperedges := (subNetworks.map
      (fun sn => sn.2.hyperedges.map (glueEdge node_mapping sn.1))).flatten
    in_nodes := in_nodes
    out_nodes := out_nodes }

/-- Modelled from the spec (node_toolkit/node_net.py missing): an MHDNet
forward pass is the forward pass of the glued global dataflow graph. -/
def mhdForward {γ ν α : Type} [DecidableEq ν] [DecidableEq γ] [Inhabited γ]
    [Inhabited α] (subNetworks : List (String × HDNetCfg ν α))
    (node_mapping : List (γ × String × ν)) (in_nodes out_nodes : List γ)
    (inputs : List α) : List (Hyperedge γ α) × List (Option α) :=
  hdForward (mhdGlue subNetworks node_mapping in_nodes out_nodes) inputs

/-! ### Theorems -/

/-- Python string comparison is total. -/
instance : IsTotal (List Char) pleRel := by
  constructor
  intro a
  induction a with
  | nil =>
    intro b
    left
    rfl
  | cons c cs ih =>
    intro b
    cases b with
    | nil =>
      right
      rfl
    | cons d ds =>
      by_cases hcd : c = d
      · subst hcd
        rcases ih ds with h | h
        · left
          simpa [pleRel, pyStrLe] using h
        · right
          simpa [pleRel, pyStrLe] using h
      · rcases lt_or_gt_of_ne hcd with h | h
        · left
          simp [pleRel, pyStrLe, hcd, h]
        · right
          simp [pleRel, pyStrLe, Ne.symm hcd, h]

/-- Python string comparison is transitive. -/
instance : IsTrans (List Char) pleRel := by
  constructor
  intro a
  induction a with
  | nil =>
    intro b c _ _
    rfl
  | cons x xs ih =>
    intro b c hab hbc
    cases b with
    | nil => exact absurd hab (by simp [pleRel, pyStrLe])
    | cons y ys =>
      cases c with
      | nil => exact absurd hbc (by simp [pleRel, pyStrLe])
      | cons z zs =>
        by_cases hxy : x = y
        · subst hxy
          by_cases hyz : x = z
          · subst hyz
            simp only [pleRel, pyStrLe, if_pos rfl] at hab hbc ⊢
            exact ih ys zs hab hbc
          · simp only [pleRel, pyStrLe, if_pos rfl, if_neg hyz] at hbc ⊢
            exact hbc
        · by_cases hyz : y = z
          · subst hyz
            simp only [pleRel, pyStrLe, if_neg hxy] at hab ⊢
            exact hab
          · simp only [pleRel, pyStrLe, if_neg hxy, if_neg hyz,
              decide_eq_true_eq] at hab hbc
            have hxz : x < z := lt_trans hab hbc
            simp [pleRel, pyStrLe, ne_of_lt hxz, hxz]

/-- `pySorted` preserves membership. -/
theorem pySorted_mem (l : List (List Char)) (c : List Char) :
    c ∈ pySorted l ↔ c ∈ l :=
  (List.perm_insertionSort _ l).mem_iff

/-- `pySorted` output is sorted in Python string order. -/
theorem pySorted_sorted (l : List (List Char)) : (pySorted l).Sorted pleRel :=
  List.sorted_insertionSort _ l

/-- `pySorted` returns the empty list only on the empty list. -/
theorem pySorted_eq_nil_iff (l : List (List Char)) : pySorted l = [] ↔ l = [] := by
  constructor
  · intro h
    have hp := (List.perm_insertionSort pleRel l).length_eq
    rw [show l.insertionSort pleRel = pySorted l from rfl, h] at hp
    exact List.length_eq_zero.mp hp.symm
  · intro h
    rw [h]
    rfl

/-- A sum of pointwise sums of rationals splits into two sums. -/
theorem list_sum_map_add {α : Type} (l : List α) (f g : α → ℚ) :
    (l.map (fun x => f x + g x)).sum = (l.map f).sum + (l.map g).sum := by
  induction l with
  | nil => simp
  | cons a l ih => simp [ih]; ring

/-- A common divisor moves out of a sum of rationals. -/
theorem list_sum_map_div {α : Type} (l : List α) (f : α → ℚ) (d : ℚ) :
    (l.map (fun x => f x / d)).sum = (l.map f).sum / d := by
  induction l with
  | nil => simp
  | cons a l ih => simp [ih, add_div]

/-- A common left factor moves out of a sum of rationals. -/
theorem list_sum_map_mul_left {α : Type} (l : List α) (f : α → ℚ) (a : ℚ) :
    (l.map (fun x => a * f x)).sum = a * (l.map f).sum := by
  induction l with
  | nil => simp
  | cons b l ih => simp [ih, mul_add]

/-- Summing the per-batch weighted task loss over the batches equals summing,
over the task's loss configs, the weight times the summed per-batch values
(exchange of the two finite sums). -/
theorem sum_batchTaskLoss_eq (t : TaskCfg) (numBatches : ℕ) :
    ((List.range numBatches).map (fun b => batchTaskLoss t b)).sum
      = (t.lossCfgs.map
          (fun c => c.weight * ((List.range numBatches).map c.lossVal).sum)).sum := by
  obtain ⟨cfgs⟩ := t
  unfold batchTaskLoss
  induction cfgs with
  | nil => simp
  | cons c cs ih =>
    simp only [List.map_cons, List.sum_cons]
    rw [list_sum_map_add (List.range numBatches)
      (fun b => c.weight * c.lossVal b)
      (fun b => (cs.map (fun c => c.weight * c.lossVal b)).sum)]
    rw [list_sum_map_mul_left, ih]

/-- Folding `set_batch_seed` over a list of nodes sets every listed node's
seed and leaves the others untouched. -/
theorem foldl_set_batch_seed {ν : Type} [DecidableEq ν] (nodes : List ν)
    (s : ℕ) (f : ν → Option ℕ) (n : ν) :
    (nodes.foldl (fun g m => set_batch_seed m s g) f) n
      = if n ∈ nodes then some s else f n := by
  induction nodes generalizing f with
  | nil => simp
  | cons a as ih =>
    simp only [List.foldl_cons, ih, set_batch_seed]
    by_cases hmem : n ∈ as
    · simp [hmem]
    · by_cases hna : n = a
      · subst hna; simp [hmem]
      · simp [hmem, hna]

/-- The seeding loop on `xs ++ [s]` is the loop on `xs` followed by one
per-batch body with seed `s`. -/
theorem seedLoop_append {ν : Type} [DecidableEq ν] (trainNodes valNodes : List ν)
    (xs : List ℕ) (s : ℕ) (st : SeedState ν) :
    seedLoop trainNodes valNodes (xs ++ [s]) st
      = seedOneBatch trainNodes valNodes s (seedLoop trainNodes valNodes xs st) := by
  unfold seedLoop
  rw [List.foldl_append]
  rfl

/-- After processing the first `i+1` batch seeds, every training node and
every validation node holds exactly seed `batchSeeds[i]`. -/
theorem seedLoop_take_eq {ν : Type} [DecidableEq ν]
    (trainNodes valNodes : List ν) (batchSeeds : List ℕ) (st : SeedState ν)
    (i : ℕ) (hi : i < batchSeeds.length) :
    (∀ n ∈ trainNodes,
      (seedLoop trainNodes valNodes (batchSeeds.take (i+1)) st).trainSeed n
        = some (batchSeeds.get ⟨i, hi⟩))
    ∧ (∀ n ∈ valNodes,
      (seedLoop trainNodes valNodes (batchSeeds.take (i+1)) st).valSeed n
        = some (batchSeeds.get ⟨i, hi⟩)) := by
  have htake : batchSeeds.take (i+1)
      = batchSeeds.take i ++ [batchSeeds.get ⟨i, hi⟩] := by
    rw [List.take_succ, List.getElem?_eq_getElem hi]
    rfl
  constructor
  · intro n hn
    rw [htake, seedLoop_append]
    simp [seedOneBatch, foldl_set_batch_seed, hn]
  · intro n hn
    rw [htake, seedLoop_append]
    simp [seedOneBatch, foldl_set_batch_seed, hn]

/-- C3: while `last_epoch < warmup_epochs`, `WarmupCosineAnnealingLR.get_lr`
returns `base_lr * (last_epoch + 1) / warmup_epochs` for every parameter
group; the values are strictly increasing in `last_epoch` (for positive base
learning rates); at the final warmup epoch `last_epoch = warmup_epochs - 1`
the returned values are exactly the base learning rates; and for
`last_epoch >= warmup_epochs` it returns the parent cosine-annealing
schedule's values. -/
theorem C3_warmup_then_cosine (baseLrs : List ℚ) (warmupEpochs : ℕ)
    (parentGetLr : ℤ → List ℚ) (hw : 1 ≤ warmupEpochs) :
    (∀ e : ℤ, e < (warmupEpochs : ℤ) →
      WarmupCosineAnnealingLR.get_lr baseLrs warmupEpochs parentGetLr e
        = baseLrs.map (fun baseLr => baseLr * (((e : ℚ) + 1) / (warmupEpochs : ℚ))))
    ∧ (∀ e₁ e₂ : ℤ, e₁ < e₂ → e₂ < (warmupEpochs : ℤ) →
        (∀ b ∈ baseLrs, 0 < b) →
        List.Forall₂ (· < ·)
          (WarmupCosineAnnealingLR.get_lr baseLrs warmupEpochs parentGetLr e₁)
          (WarmupCosineAnnealingLR.get_lr baseLrs warmupEpochs parentGetLr e₂))
    ∧ WarmupCosineAnnealingLR.get_lr baseLrs warmupEpochs parentGetLr
        ((warmupEpochs : ℤ) - 1) = baseLrs
    ∧ (∀ e : ℤ, (warmupEpochs : ℤ) ≤ e →
        WarmupCosineAnnealingLR.get_lr baseLrs warmupEpochs parentGetLr e
          = parentGetLr e) := by
  have hw0 : (0 : ℚ) < (warmupEpochs : ℚ) := by exact_mod_cast hw
  refine ⟨?_, ?_, ?_, ?_⟩
  · intro e he
    unfold WarmupCosineAnnealingLR.get_lr
    rw [if_pos he]
  · intro e₁ e₂ h12 h2 hpos
    have h1 : e₁ < (warmupEpochs : ℤ) := lt_trans h12 h2
    unfold WarmupCosineAnnealingLR.get_lr
    rw [if_pos h1, if_pos h2]
    have hfac : ((e₁ : ℚ) + 1) / (warmupEpochs : ℚ)
        < ((e₂ : ℚ) + 1) / (warmupEpochs : ℚ) := by
      have : (e₁ : ℚ) + 1 < (e₂ : ℚ) + 1 := by
        have : (e₁ : ℚ) < (e₂ : ℚ) := by exact_mod_cast h12
        linarith
      exact div_lt_div_of_pos_right this hw0
    induction baseLrs with
    | nil => exact List.Forall₂.nil
    | cons b bs ih =>
      refine List.Forall₂.cons ?_ (ih fun x hx => hpos x (List.mem_cons_of_mem _ hx))
      exact mul_lt_mul_of_pos_left hfac (hpos b (List.mem_cons_self _ _))
  · unfold WarmupCosineAnnealingLR.get_lr
    rw [if_pos (by omega)]
    have hfac : (((((warmupEpochs : ℤ) - 1) : ℤ) : ℚ) + 1) / (warmupEpochs : ℚ) = 1 := by
      push_cast
      field_simp
    simp [hfac, div_self (ne_of_gt hw0)]
  · intro e he
    unfold WarmupCosineAnnealingLR.get_lr
    rw [if_neg (not_lt.mpr he)]

/-- `task_losses_avg` for one task is the sum of its per-batch weighted
losses divided by the number of batches. -/
theorem task_losses_avg_eq (t : TaskCfg) (numBatches : ℕ) :
    task_losses_avg t numBatches
      = ((List.range numBatches).map (fun b => batchTaskLoss t b)).sum
          / (numBatches : ℚ) := by
  have hfg : (fun c : LossCfg => npMean (lossValues c numBatches) * c.weight)
      = fun c : LossCfg =>
          c.weight * ((List.range numBatches).map c.lossVal).sum / (numBatches : ℚ) := by
    funext c
    unfold npMean lossValues
    simp only [List.length_map, List.length_range]
    ring
  unfold task_losses_avg
  rw [hfg, list_sum_map_div, sum_batchTaskLoss_eq]

/-- C4: in exact rational arithmetic, the first value returned by `train`
(and by the identical accumulation in `validate`), namely
`avg_loss = running_loss / num_batches`, equals the sum over the tasks of
`task_losses_avg[task]` — the mean over batches of the weighted task losses
equals the weighted sum of per-loss means, by linearity of the mean. -/
theorem C4_avg_loss_eq_sum_task_losses (tasks : List TaskCfg)
    (numBatches : ℕ) (_hB : 0 < numBatches) :
    avg_loss tasks numBatches = sumTaskLossesAvg tasks numBatches := by
  unfold avg_loss running_loss sumTaskLossesAvg
  induction tasks with
  | nil =>
    have h0 : batchTotalLoss [] = fun _ => (0 : ℚ) := by
      funext b
      simp [batchTotalLoss]
    rw [h0]
    simp
  | cons t ts ih =>
    simp only [List.map_cons, List.sum_cons]
    have hsplit : ((List.range numBatches).map (batchTotalLoss (t :: ts))).sum
        = ((List.range numBatches).map (fun b => batchTaskLoss t b)).sum
          + ((List.range numBatches).map (batchTotalLoss ts)).sum := by
      rw [← list_sum_map_add]
      rfl
    rw [hsplit, add_div, ih, ← task_losses_avg_eq]

/-- Evaluation of C4 at a concrete input: two tasks, three loss configs,
two batches; both sides evaluate to 27/4. -/
theorem C4_avg_loss_witness :
    avg_loss [⟨[⟨1, fun b => b⟩, ⟨2, fun _ => 3⟩]⟩, ⟨[⟨1/2, fun b => b * b⟩]⟩] 2
      = sumTaskLossesAvg
          [⟨[⟨1, fun b => b⟩, ⟨2, fun _ => 3⟩]⟩, ⟨[⟨1/2, fun b => b * b⟩]⟩] 2
    ∧ avg_loss [⟨[⟨1, fun b => b⟩, ⟨2, fun _ => 3⟩]⟩, ⟨[⟨1/2, fun b => b * b⟩]⟩] 2
      = 27/4 := by
  constructor
  · exact C4_avg_loss_eq_sum_task_losses _ 2 (by norm_num)
  · unfold avg_loss running_loss batchTotalLoss batchTaskLoss
    norm_num [List.range_succ]

/-- C2: in each training epoch's seeding loop, for every batch index `i` a
single seed `batchSeeds[i]` is assigned via `set_batch_seed` to every
training dataset and every validation dataset alike (so no node holds a seed
different from the other nodes for batch index `i`), and after the whole
seeding loop all node datasets hold one identical batch seed. -/
theorem C2_batch_seeds_consistent {ν : Type} [DecidableEq ν]
    (trainNodes valNodes : List ν) (batchSeeds : List ℕ) (st : SeedState ν)
    (i : ℕ) (hi : i < batchSeeds.length) :
    (∀ n ∈ trainNodes,
      (seedLoop trainNodes valNodes (batchSeeds.take (i+1)) st).trainSeed n
        = some (batchSeeds.get ⟨i, hi⟩))
    ∧ (∀ n ∈ valNodes,
      (seedLoop trainNodes valNodes (batchSeeds.take (i+1)) st).valSeed n
        = some (batchSeeds.get ⟨i, hi⟩))
    ∧ (∀ n ∈ trainNodes, ∀ m ∈ valNodes,
      (seedLoop trainNodes valNodes batchSeeds st).trainSeed n
        = (seedLoop trainNodes valNodes batchSeeds st).valSeed m) := by
  refine ⟨(seedLoop_take_eq trainNodes valNodes batchSeeds st i hi).1,
    (seedLoop_take_eq trainNodes valNodes batchSeeds st i hi).2, ?_⟩
  intro n hn m hm
  have hlen : batchSeeds.length - 1 < batchSeeds.length := by omega
  have hfull : batchSeeds.take (batchSeeds.length - 1 + 1) = batchSeeds := by
    have : batchSeeds.length - 1 + 1 = batchSeeds.length := by omega
    rw [this, List.take_length]
  have h := seedLoop_take_eq trainNodes valNodes batchSeeds st
    (batchSeeds.length - 1) hlen
  rw [hfull] at h
  rw [h.1 n hn, h.2 m hm]

/-- Evaluation of C2 at a concrete input: two training nodes, one validation
node, batch seeds `[5, 7]`. -/
theorem C2_batch_seeds_consistent_witness :
    ((seedLoop [0, 1] [2] ([5, 7].take 1)
        ⟨fun _ => none, fun _ => none⟩).trainSeed (0 : ℕ) = some 5)
    ∧ ((seedLoop [0, 1] [2] [5, 7]
        ⟨fun _ => none, fun _ => none⟩).trainSeed (0 : ℕ)
      = (seedLoop [0, 1] [2] [5, 7]
        ⟨fun _ => none, fun _ => none⟩).valSeed 2) := by
  have h := C2_batch_seeds_consistent ([0, 1] : List ℕ) [2] [5, 7]
    ⟨fun _ => none, fun _ => none⟩ 0 (by decide)
  exact ⟨by simpa using h.1 0 (by decide), h.2.2 0 (by decide) 2 (by decide)⟩

/-- Evaluation of C3 at a concrete input: one parameter group with base
learning rate 1/1000, 20 warmup epochs. -/
theorem C3_warmup_then_cosine_witness :
    WarmupCosineAnnealingLR.get_lr [(1 : ℚ)/1000] 20 (fun _ => [(7 : ℚ)]) 4
        = [(1 : ℚ)/1000 * (5/20)]
    ∧ WarmupCosineAnnealingLR.get_lr [(1 : ℚ)/1000] 20 (fun _ => [(7 : ℚ)]) 19
        = [(1 : ℚ)/1000]
    ∧ WarmupCosineAnnealingLR.get_lr [(1 : ℚ)/1000] 20 (fun _ => [(7 : ℚ)]) 25
        = [(7 : ℚ)] := by
  have h := C3_warmup_then_cosine [(1 : ℚ)/1000] 20 (fun _ => [(7 : ℚ)])
    (by norm_num)
  refine ⟨?_, ?_, h.2.2.2 25 (by norm_num)⟩
  · have h4 := h.1 4 (by norm_num)
    rw [h4]
    norm_num
  · have h19 := h.2.2.1
    norm_num at h19
    exact h19

/-- Membership in the set-intersection fold: common to the start set and to
every folded set. -/
theorem mem_foldl_listInter (rest : List (List (List Char)))
    (s0 : List (List Char)) (c : List Char) :
    c ∈ rest.foldl listInter s0 ↔ (c ∈ s0 ∧ ∀ l ∈ rest, c ∈ l) := by
  induction rest generalizing s0 with
  | nil => simp
  | cons a t ih =>
    simp only [List.foldl_cons, ih, listInter, List.mem_filter, List.contains,
      List.elem_eq_mem, decide_eq_true_eq, List.mem_cons]
    constructor
    · rintro ⟨⟨hc0, hca⟩, ht⟩
      refine ⟨hc0, fun l hl => ?_⟩
      rcases hl with rfl | hl
      · exact hca
      · exact ht l hl
    · rintro ⟨hc0, hall⟩
      exact ⟨⟨hc0, hall a (Or.inl rfl)⟩, fun l hl => hall l (Or.inr hl)⟩

/-- The sorted deduplicated union is empty iff every per-filename ID list is
empty. -/
theorem cls_union_empty_iff (allFiles filenames : List (List Char)) :
    pySorted (((filenames.map
        (fun fn => cls_get_case_ids allFiles fn)).flatten).dedup) = []
      ↔ ∀ fn ∈ filenames, cls_get_case_ids allFiles fn = [] := by
  rw [pySorted_eq_nil_iff, List.dedup_eq_nil, List.flatten_eq_nil_iff]
  simp

/-- C7: dataset setup fails exactly on an empty case-ID collection, with
different aggregation in the two pipelines.  Classification: `ValueError`
precisely when the union over the node filenames of the extracted IDs is
empty; otherwise it proceeds with the sorted union.  Segmentation:
`ValueError` precisely when the intersection over the node suffixes is
empty; otherwise it proceeds with the sorted intersection. -/
theorem C7_case_id_aggregation (allFiles filenames : List (List Char))
    (sfx0 : List Char) (sfxRest : List (List Char)) :
    (clsCollectCaseIds allFiles filenames
        = Except.error "No case_ids found in train directory!"
      ↔ ∀ fn ∈ filenames, cls_get_case_ids allFiles fn = [])
    ∧ (∀ ids, clsCollectCaseIds allFiles filenames = Except.ok ids →
        ids.Sorted pleRel
        ∧ ∀ c, (c ∈ ids ↔ ∃ fn ∈ filenames, c ∈ cls_get_case_ids allFiles fn))
    ∧ (segCollectCaseIds allFiles (sfx0 :: sfxRest)
        = Except.error "No common case_ids found in train directory!"
      ↔ ¬ ∃ c, ∀ s ∈ sfx0 :: sfxRest, c ∈ seg_get_case_ids_or allFiles s)
    ∧ (∀ ids, segCollectCaseIds allFiles (sfx0 :: sfxRest) = Except.ok ids →
        ids.Sorted pleRel
        ∧ ∀ c, (c ∈ ids ↔ ∀ s ∈ sfx0 :: sfxRest,
            c ∈ seg_get_case_ids_or allFiles s)) := by
  have hcls := cls_union_empty_iff allFiles filenames
  have hmemInter : ∀ c, c ∈ (sfxRest.map
        (fun s => seg_get_case_ids_or allFiles s)).foldl listInter
          (seg_get_case_ids_or allFiles sfx0)
      ↔ ∀ s ∈ sfx0 :: sfxRest, c ∈ seg_get_case_ids_or allFiles s := by
    intro c
    rw [mem_foldl_listInter]
    simp only [List.mem_map, List.mem_cons]
    constructor
    · rintro ⟨h0, hall⟩ s hs
      rcases hs with rfl | hs
      · exact h0
      · exact hall _ ⟨s, hs, rfl⟩
    · intro h
      refine ⟨h sfx0 (Or.inl rfl), ?_⟩
      rintro l ⟨s, hs, rfl⟩
      exact h s (Or.inr hs)
  refine ⟨?_, ?_, ?_, ?_⟩
  · unfold clsCollectCaseIds
    split_ifs with h
    · exact ⟨fun _ => hcls.mp (List.isEmpty_iff.mp h), fun _ => rfl⟩
    · constructor
      · intro hcontra
        exact absurd hcontra (by simp)
      · intro hall
        exact absurd (List.isEmpty_iff.mpr (hcls.mpr hall)) (by simp [h])
  · intro ids hok
    unfold clsCollectCaseIds at hok
    split_ifs at hok with h
    · obtain rfl := (Except.ok.inj hok).symm
      refine ⟨pySorted_sorted _, fun c => ?_⟩
      rw [pySorted_mem, List.mem_dedup, List.mem_flatten]
      simp
  · unfold segCollectCaseIds
    simp only [List.map_cons]
    split_ifs with h
    · constructor
      · rintro - ⟨c, hc⟩
        have hmem : c ∈ (sfxRest.map (fun s => seg_get_case_ids_or allFiles s)).foldl
            listInter (seg_get_case_ids_or allFiles sfx0) := (hmemInter c).mpr hc
        rw [List.isEmpty_iff.mp h] at hmem
        exact absurd hmem (List.not_mem_nil c)
      · intro _
        rfl
    · constructor
      · intro hcontra
        exact absurd hcontra (by simp)
      · intro hno
        have hempty : (sfxRest.map (fun s => seg_get_case_ids_or allFiles s)).foldl
            listInter (seg_get_case_ids_or allFiles sfx0) = [] := by
          rw [List.eq_nil_iff_forall_not_mem]
          intro c hc
          exact hno ⟨c, (hmemInter c).mp hc⟩
        exact absurd (List.isEmpty_iff.mpr hempty) (by simp [h])
  · intro ids hok
    unfold segCollectCaseIds at hok
    simp only [List.map_cons] at hok
    split_ifs at hok with h
    · obtain rfl := (Except.ok.inj hok).symm
      refine ⟨pySorted_sorted _, fun c => ?_⟩
      rw [pySorted_mem]
      exact hmemInter c

/-- Evaluation of C7 at concrete inputs: an empty train directory raises the
`ValueError`; a directory with `case_10_0000.nii.gz` and `case_9_0001.nii.gz`
yields the sorted union `["10", "9"]` for the classification pipeline, and
the suffix `0000` yields `["10"]` for the segmentation pipeline. -/
theorem C7_case_id_aggregation_witness :
    (clsCollectCaseIds [] ["0000.nii.gz".toList]
        = Except.error "No case_ids found in train directory!")
    ∧ (["10".toList, "9".toList] : List (List Char)).Sorted pleRel
    ∧ ("10".toList ∈ (["10".toList, "9".toList] : List (List Char))
        ↔ ∃ fn ∈ [("0000.nii.gz".toList : List Char), "0001.nii.gz".toList],
            "10".toList ∈ cls_get_case_ids
              ["case_10_0000.nii.gz".toList, "case_9_0001.nii.gz".toList] fn)
    ∧ ("10".toList ∈ (["10".toList] : List (List Char))
        ↔ ∀ s ∈ [("0000".toList : List Char)],
            "10".toList ∈ seg_get_case_ids_or
              ["case_10_0000.nii.gz".toList, "case_9_0001.nii.gz".toList] s) := by
  have hcls := (C7_case_id_aggregation
    ["case_10_0000.nii.gz".toList, "case_9_0001.nii.gz".toList]
    ["0000.nii.gz".toList, "0001.nii.gz".toList] "0000".toList []).2.1
    ["10".toList, "9".toList] (by rfl)
  have hseg := (C7_case_id_aggregation
    ["case_10_0000.nii.gz".toList, "case_9_0001.nii.gz".toList]
    ["0000.nii.gz".toList, "0001.nii.gz".toList] "0000".toList []).2.2.2
    ["10".toList] (by rfl)
  refine ⟨?_, hcls.1, hcls.2 "10".toList, hseg.2 "10".toList⟩
  exact (C7_case_id_aggregation [] ["0000.nii.gz".toList] [] []).1.mpr
    (by decide)

/-- C8: importing node_cls_train_poly_unicomnet.py always fails with an
`ImportError` before any training can run: line 13 requests
`CosineAnnealingLR`, `PolynomialLR` and `ReduceLROnPlateau` from
`node_toolkit.node_utils`, but none of these names exists in that module. -/
theorem C8_poly_unicomnet_import_fails :
    polyUnicomnetModuleInit
      = Except.error "ImportError: cannot import name CosineAnnealingLR"
    ∧ "CosineAnnealingLR" ∉ nodeUtilsNames
    ∧ "PolynomialLR" ∉ nodeUtilsNames
    ∧ "ReduceLROnPlateau" ∉ nodeUtilsNames := by
  refine ⟨rfl, by decide, by decide, by decide⟩

/-- Unrolling the case-ID fold: batches are all counted, and the warned
indices are exactly the inconsistent ones, in order. -/
theorem epochCaseIdRun_foldl (l : List (ℕ × List (List String)))
    (k : ℕ) (w : List ℕ) :
    l.foldl
      (fun acc b =>
        (acc.1 + 1, if batchConsistent b.2 then acc.2 else acc.2 ++ [b.1]))
      (k, w)
      = (k + l.length,
         w ++ (l.filter (fun b => !(batchConsistent b.2))).map Prod.fst) := by
  induction l generalizing k w with
  | nil => simp
  | cons a l ih =>
    cases hc : batchConsistent a.2
    · simp only [List.foldl_cons, hc, Bool.not_false, List.filter_cons,
        List.length_cons, if_true]
      rw [ih]
      simp only [Bool.false_eq_true, if_false, List.map_cons, Prod.mk.injEq]
      exact ⟨by omega, by simp⟩
    · simp only [List.foldl_cons, hc, Bool.not_true, List.filter_cons,
        List.length_cons, if_true]
      rw [ih]
      simp only [Bool.false_eq_true, if_false, Prod.mk.injEq]
      exact ⟨by omega, trivial⟩

/-- C6: in every batch of `train` and `validate`, when some node's case-ID
set differs from the first node's, the loop only records a warning and still
processes the batch: the number of processed batches (and, in `train`,
optimizer steps) equals the total number of batches regardless of
consistency, and the warned batch indices are exactly the inconsistent
ones - no batch is raised on, skipped or dropped. -/
theorem C6_inconsistent_batch_only_warns (batches : List (List (List String))) :
    (epochCaseIdRun batches).1 = batches.length
    ∧ (epochCaseIdRun batches).2
        = (batches.enum.filter (fun b => !(batchConsistent b.2))).map Prod.fst := by
  unfold epochCaseIdRun
  rw [epochCaseIdRun_foldl]
  simp

/-- `b` is below the running minimum of a length list iff it is below the
initial value and every listed length. -/
theorem lt_foldr_min_iff (l : List ℕ) (init b : ℕ) :
    b < l.foldr min init ↔ (b < init ∧ ∀ x ∈ l, b < x) := by
  induction l with
  | nil => simp
  | cons a l ih =>
    simp only [List.foldr_cons, Nat.lt_min, ih, List.mem_cons]
    constructor
    · rintro ⟨ha, hinit, hall⟩
      exact ⟨hinit, fun x hx => by
        rcases hx with rfl | hx
        · exact ha
        · exact hall x hx⟩
    · rintro ⟨hinit, hall⟩
      exact ⟨hall a (Or.inl rfl), hinit, fun x hx => hall x (Or.inr hx)⟩

/-- Characterization of the batch loop: with `mval` the least number of
batches any node offers, the loop completes `min (mval - b) r` of the `r`
remaining batches starting at index `b`, and survives iff `r ≤ mval - b`. -/
theorem trainRunBatches_eq {ν β : Type} (dls : List (ν × List β)) (mval : ℕ)
    (hall : ∀ b, (dls.all (fun nd => decide (b < nd.2.length)) = true) ↔ b < mval)
    (r b : ℕ) :
    trainRunBatches dls b r = (min (mval - b) r, decide (r ≤ mval - b)) := by
  induction r generalizing b with
  | zero => simp [trainRunBatches]
  | succ r ih =>
    unfold trainRunBatches
    by_cases h : b < mval
    · rw [if_pos ((hall b).mpr h), ih (b + 1)]
      have hmin : min (mval - (b + 1)) r + 1 = min (mval - b) (r + 1) := by
        rw [Nat.min_def, Nat.min_def]
        split_ifs <;> omega
      have hdec : decide (r ≤ mval - (b + 1)) = decide (r + 1 ≤ mval - b) := by
        by_cases hd : r ≤ mval - (b + 1)
        · have hd2 : r + 1 ≤ mval - b := by omega
          simp [hd, hd2]
        · have hd2 : ¬ (r + 1 ≤ mval - b) := by omega
          simp [hd, hd2]
      rw [hmin, hdec]
    · rw [if_neg (fun hc => h ((hall b).mp hc))]
      have hmin : min (mval - b) (r + 1) = 0 := by
        rw [Nat.min_def]
        split_ifs <;> omega
      have hdec : decide (r + 1 ≤ mval - b) = false := by
        simp only [decide_eq_false_iff_not]
        omega
      rw [hmin, hdec]

/-- C9: `train` and `validate` presuppose equally long dataloaders:
`num_batches` is the length of the first dataloader in dict order; when the
least batch count `m` over the nodes is smaller, the epoch loop dies with an
uncaught `StopIteration` after completing exactly `m` batches (so in `train`
the optimizer has already stepped `m` times - the epoch is not atomic);
otherwise all `num_batches` batches complete. -/
theorem C9_shorter_dataloader_stops {ν β : Type} (d0 : ν × List β)
    (rest : List (ν × List β)) :
    ((((d0 :: rest).map (fun nd => nd.2.length)).foldr min d0.2.length
        < d0.2.length) →
      trainEpochBatches (d0 :: rest)
        = (((d0 :: rest).map (fun nd => nd.2.length)).foldr min d0.2.length,
           false))
    ∧ ((d0.2.length
        ≤ ((d0 :: rest).map (fun nd => nd.2.length)).foldr min d0.2.length) →
      trainEpochBatches (d0 :: rest) = (d0.2.length, true)) := by
  set mval := ((d0 :: rest).map (fun nd => nd.2.length)).foldr min d0.2.length
    with hm
  have hall : ∀ b, ((d0 :: rest).all (fun nd => decide (b < nd.2.length)) = true)
      ↔ b < mval := by
    intro b
    rw [hm, lt_foldr_min_iff]
    simp only [List.all_eq_true, decide_eq_true_eq, List.mem_map]
    constructor
    · intro h
      refine ⟨h d0 (List.mem_cons_self _ _), ?_⟩
      rintro x ⟨nd, hnd, rfl⟩
      exact h nd hnd
    · rintro ⟨h0, h⟩ nd hnd
      exact h nd.2.length ⟨nd, hnd, rfl⟩
  have hrun := trainRunBatches_eq (d0 :: rest) mval hall d0.2.length 0
  rw [Nat.sub_zero] at hrun
  have hbase : trainEpochBatches (d0 :: rest)
      = trainRunBatches (d0 :: rest) 0 d0.2.length := rfl
  constructor
  · intro hlt
    rw [hbase, hrun]
    have h1 : min mval d0.2.length = mval := by
      rw [Nat.min_def]
      split_ifs <;> omega
    have h2 : decide (d0.2.length ≤ mval) = false := by
      simp only [decide_eq_false_iff_not]
      omega
    rw [h1, h2]
  · intro hle
    rw [hbase, hrun]
    have h1 : min mval d0.2.length = d0.2.length := by
      rw [Nat.min_def]
      split_ifs <;> omega
    have h2 : decide (d0.2.length ≤ mval) = true := by
      simp [hle]
    rw [h1, h2]

/-- Evaluation of C9 at a concrete input: the first dataloader has 2 batches
but the second only 1, so the epoch dies after exactly 1 completed batch
(one optimizer step already taken); with matching lengths it completes. -/
theorem C9_shorter_dataloader_stops_witness :
    trainEpochBatches [((0 : ℕ), [(10 : ℕ), 20]), (1, [30])] = (1, false)
    ∧ trainEpochBatches [((0 : ℕ), [(10 : ℕ)]), (1, [30])] = (1, true) := by
  constructor
  · exact (C9_shorter_dataloader_stops ((0 : ℕ), [(10 : ℕ), 20]) [(1, [30])]).1
      (by decide)
  · exact (C9_shorter_dataloader_stops ((0 : ℕ), [(10 : ℕ)]) [(1, [30])]).2
      (by decide)

/-- Every event of a validate trace is one of the four event shapes the
source produces. -/
theorem mem_validateEffectTrace (numBatches numLossCfgs numMetrics : ℕ)
    (ev : PyEff × Bool)
    (h : ev ∈ validateEffectTrace numBatches numLossCfgs numMetrics) :
    ev = (PyEff.evalMode, true) ∨ ev = (PyEff.forwardPass, false)
    ∨ ev = (PyEff.lossCompute, false) ∨ ev = (PyEff.metricCompute, true) := by
  unfold validateEffectTrace at h
  rcases List.mem_cons.mp h with h1 | h2
  · exact Or.inl h1
  rcases List.mem_append.mp h2 with h3 | h4
  · obtain ⟨l, hl, hev⟩ := List.mem_flatten.mp h3
    obtain ⟨b, _, rfl⟩ := List.mem_map.mp hl
    rcases List.mem_cons.mp hev with h5 | h6
    · exact Or.inr (Or.inl h5)
    · obtain ⟨c, _, rfl⟩ := List.mem_map.mp h6
      exact Or.inr (Or.inr (Or.inl rfl))
  · obtain ⟨c, _, rfl⟩ := List.mem_map.mp h4
    exact Or.inr (Or.inr (Or.inr rfl))

/-- A trace none of whose events can write parameters leaves them unchanged. -/
theorem runParams_of_no_writes {α : Type} (f : PyEff → α → α) (p : α)
    (trace : List (PyEff × Bool))
    (h : ∀ ev ∈ trace, effWritesParams ev.1 = false) :
    runParams f p trace = p := by
  induction trace generalizing p with
  | nil => rfl
  | cons ev t ih =>
    unfold runParams
    rw [List.foldl_cons, if_neg (by simp [h ev (List.mem_cons_self _ _)])]
    exact ih p fun e he => h e (List.mem_cons_of_mem _ he)

/-- C5, counterexample to the claim as stated: it is not true that the
entire loss AND metric computation of `validate` runs inside
`torch.no_grad` - with one batch, one loss config and one metric config,
the trace contains a metric evaluation performed with gradient tracking
enabled, because lines 268-280 run after the `with torch.no_grad():` block
of lines 198-258 has closed. -/
theorem C5_metric_outside_no_grad :
    ¬ (∀ ev ∈ validateEffectTrace 1 1 1,
        (ev.1 = PyEff.lossCompute ∨ ev.1 = PyEff.metricCompute) →
          ev.2 = false) := by
  decide

/-- C5 (amended): `validate` never changes the model parameters - for every
mutation semantics of the parameter-writing effects, replaying a validate
trace is the identity on parameters; the trace contains no backward pass and
no optimizer step; the forward passes and all per-batch loss evaluations run
inside `torch.no_grad`; only the final metric evaluations run after the
`no_grad` block, on detached tensors. -/
theorem C5_validate_preserves_params (numBatches numLossCfgs numMetrics : ℕ) :
    (∀ {α : Type} (f : PyEff → α → α) (p : α),
      runParams f p (validateEffectTrace numBatches numLossCfgs numMetrics) = p)
    ∧ (∀ ev ∈ validateEffectTrace numBatches numLossCfgs numMetrics,
        ev.1 ≠ PyEff.backwardStep ∧ ev.1 ≠ PyEff.optimStep
          ∧ ev.1 ≠ PyEff.paramWrite)
    ∧ (∀ ev ∈ validateEffectTrace numBatches numLossCfgs numMetrics,
        (ev.1 = PyEff.forwardPass ∨ ev.1 = PyEff.lossCompute) → ev.2 = false)
    ∧ (∀ ev ∈ validateEffectTrace numBatches numLossCfgs numMetrics,
        ev.1 = PyEff.metricCompute → ev.2 = true) := by
  have hshape := mem_validateEffectTrace numBatches numLossCfgs numMetrics
  refine ⟨?_, ?_, ?_, ?_⟩
  · intro α f p
    refine runParams_of_no_writes f p _ fun ev hev => ?_
    rcases hshape ev hev with rfl | rfl | rfl | rfl <;> rfl
  · intro ev hev
    rcases hshape ev hev with rfl | rfl | rfl | rfl <;>
      exact ⟨by simp, by simp, by simp⟩
  · intro ev hev hkind
    rcases hshape ev hev with rfl | rfl | rfl | rfl
    · rcases hkind with h | h <;> simp at h
    · rfl
    · rfl
    · rcases hkind with h | h <;> simp at h
  · intro ev hev hkind
    rcases hshape ev hev with rfl | rfl | rfl | rfl
    · simp at hkind
    · simp at hkind
    · simp at hkind
    · rfl

/-- Evaluation of C5 at a concrete input: a two-batch, three-loss,
one-metric validate trace leaves an arbitrary parameter state unchanged, and
its loss events run without gradient tracking. -/
theorem C5_validate_preserves_params_witness :
    runParams (fun _ q => q + 1) (0 : ℕ) (validateEffectTrace 2 3 1) = 0
    ∧ ((PyEff.lossCompute, false) : PyEff × Bool).2 = false := by
  refine ⟨(C5_validate_preserves_params 2 3 1).1 (fun _ q => q + 1) 0, ?_⟩
  exact (C5_validate_preserves_params 2 3 1).2.2.1
    (PyEff.lossCompute, false) (by decide) (Or.inr rfl)

/-- Invariant-based specification of the epoch loop with
`validation_interval = 1` (the value in both pipelines): from a state that
is either initial or carries a checkpoint at the running minimum, the loop
ends with a checkpoint whose epoch `k` attains the minimum validation loss
over all epochs run, is the last strict improvement, and lies at most
`patience` epochs before the end; on an early break the no-improvement count
has exactly reached `patience`. -/
theorem epochLoop_spec (valLoss : ℕ → ℚ) (patience : ℕ) (hp : 1 ≤ patience) :
    ∀ fuel e st st2 E,
    ((st = initialEarlyStop ∧ e = 0) ∨
      (∃ k, st.ckpt = some k ∧ k < e ∧ st.best = some (valLoss k)
        ∧ (∀ i < e, valLoss k ≤ valLoss i)
        ∧ (∀ i, k < i → i < e → ¬ valLoss i < valLoss k)
        ∧ st.noImprove = e - 1 - k ∧ e - 1 - k < patience)) →
    epochLoop valLoss patience 1 fuel e st = (st2, E) →
    e ≤ E ∧ E ≤ e + fuel ∧ (1 ≤ fuel → e + 1 ≤ E)
    ∧ (1 ≤ E →
        ∃ k, st2.ckpt = some k ∧ k < E ∧ st2.best = some (valLoss k)
          ∧ (∀ i < E, valLoss k ≤ valLoss i)
          ∧ (∀ i, k < i → i < E → ¬ valLoss i < valLoss k)
          ∧ E ≤ k + 1 + patience
          ∧ (E < e + fuel → patience ≤ E - 1 - k)) := by
  intro fuel
  induction fuel with
  | zero =>
    intro e st st2 E hInv hrun
    simp only [epochLoop] at hrun
    injection hrun with ha hb
    subst ha
    subst hb
    refine ⟨le_refl _, by omega, fun h => absurd h (by omega), fun hE => ?_⟩
    rcases hInv with ⟨rfl, rfl⟩ | ⟨k, hck, hk, hb, hmono, hlast, hni, hlt⟩
    · exact absurd hE (by omega)
    · exact ⟨k, hck, hk, hb, hmono, hlast, by omega, fun h => absurd h (by omega)⟩
  | succ fuel ih =>
    intro e st st2 E hInv hrun
    simp only [epochLoop] at hrun
    rw [if_pos (Nat.mod_one (e + 1))] at hrun
    by_cases himp : isImprovement st.best (valLoss e) = true
    · have hstep : validationStep valLoss patience 1 e st
          = ({ best := some (valLoss e), noImprove := 0, ckpt := some e },
             false) := by
        unfold validationStep
        rw [if_pos himp]
      have h2f : (validationStep valLoss patience 1 e st).2 = false := by
        rw [hstep]
      have h1v : (validationStep valLoss patience 1 e st).1
          = { best := some (valLoss e), noImprove := 0, ckpt := some e } := by
        rw [hstep]
      rw [h2f, if_neg Bool.false_ne_true, h1v] at hrun
      have hmono2 : ∀ i < e + 1, valLoss e ≤ valLoss i := by
        intro i hi
        by_cases hie : i = e
        · subst hie
          exact le_refl _
        · rcases hInv with ⟨rfl, rfl⟩ | ⟨k0, _, hk0, hb0, hmono0, _, _, _⟩
          · omega
          · have him : valLoss e < valLoss k0 := by
              simp only [isImprovement, hb0, decide_eq_true_eq] at himp
              exact himp
            exact le_of_lt (lt_of_lt_of_le him (hmono0 i (by omega)))
      have hIH := ih (e + 1)
        { best := some (valLoss e), noImprove := 0, ckpt := some e } st2 E
        (Or.inr ⟨e, rfl, by omega, rfl, hmono2,
          fun i h1 h2 => absurd h1 (by omega),
          (by show (0 : ℕ) = e + 1 - 1 - e; omega), by omega⟩) hrun
      obtain ⟨ha, hb, hc, hd⟩ := hIH
      refine ⟨by omega, by omega, fun _ => by omega, fun hE => ?_⟩
      obtain ⟨k, hck, hkE, hbest, hmono3, hlast3, hbound, hstop⟩ := hd hE
      exact ⟨k, hck, hkE, hbest, hmono3, hlast3, hbound,
        fun hlt => hstop (by omega)⟩
    · rcases hInv with ⟨rfl, rfl⟩ | ⟨k, hck, hk, hb, hmono, hlast, hni, hlt⟩
      · exact absurd rfl himp
      have hnotlt : ¬ valLoss e < valLoss k := by
        simp only [isImprovement, hb, decide_eq_true_eq] at himp
        exact himp
      have hstep : validationStep valLoss patience 1 e st
          = ({ st with noImprove := st.noImprove + 1 },
             decide (patience ≤ st.noImprove + 1)) := by
        unfold validationStep
        rw [if_neg himp]
      have h2v : (validationStep valLoss patience 1 e st).2
          = decide (patience ≤ st.noImprove + 1) := by
        rw [hstep]
      have h1v : (validationStep valLoss patience 1 e st).1
          = { st with noImprove := st.noImprove + 1 } := by
        rw [hstep]
      have hmono2 : ∀ i < e + 1, valLoss k ≤ valLoss i := by
        intro i hi
        by_cases hie : i = e
        · subst hie
          exact le_of_not_lt hnotlt
        · exact hmono i (by omega)
      have hlast2 : ∀ i, k < i → i < e + 1 → ¬ valLoss i < valLoss k := by
        intro i h1 h2
        by_cases hie : i = e
        · subst hie
          exact hnotlt
        · exact hlast i h1 (by omega)
      by_cases hbrk : patience ≤ st.noImprove + 1
      · have h2t : (validationStep valLoss patience 1 e st).2 = true := by
          rw [h2v]
          exact decide_eq_true hbrk
        rw [h2t, if_pos rfl, h1v] at hrun
        injection hrun with ha hb'
        subst ha
        subst hb'
        refine ⟨by omega, by omega, fun _ => le_refl _,
          fun _ => ⟨k, hck, by omega, hb, hmono2, hlast2, by omega, fun _ => by omega⟩⟩
      · have h2f : (validationStep valLoss patience 1 e st).2 = false := by
          rw [h2v]
          exact decide_eq_false hbrk
        rw [h2f, if_neg Bool.false_ne_true, h1v] at hrun
        have hIH := ih (e + 1) { st with noImprove := st.noImprove + 1 } st2 E
          (Or.inr ⟨k, hck, by omega, hb, hmono2, hlast2,
            (by show st.noImprove + 1 = e + 1 - 1 - k; omega),
            by omega⟩) hrun
        obtain ⟨ha, hb2, hc, hd⟩ := hIH
        refine ⟨by omega, by omega, fun _ => by omega, fun hE => ?_⟩
        obtain ⟨k2, hck2, hkE2, hbest2, hmono3, hlast3, hbound2, hstop2⟩ := hd hE
        exact ⟨k2, hck2, hkE2, hbest2, hmono3, hlast3, hbound2,
          fun hlt => hstop2 (by omega)⟩

/-- C10: with `validation_interval = 1` (the value in both pipelines) and
`patience >= 1`, a full training run ends with a checkpoint on disk whose
epoch `k` was saved exactly on the last strict improvement: its validation
loss is the minimum over every epoch run, no later epoch strictly improved
on it, the run never continues more than `patience` epochs past it
(`E <= k + 1 + patience`), stays within `num_epochs`, and when it stops
early the break happened exactly when `epochs_no_improve` reached
`patience` (`E = k + 1 + patience`). -/
theorem C10_best_checkpoint_and_early_stopping (valLoss : ℕ → ℚ)
    (patience numEpochs : ℕ) (hp : 1 ≤ patience) (hn : 1 ≤ numEpochs) :
    ∃ k,
      (runTraining valLoss patience 1 numEpochs).1.ckpt = some k
      ∧ k < (runTraining valLoss patience 1 numEpochs).2
      ∧ (runTraining valLoss patience 1 numEpochs).1.best = some (valLoss k)
      ∧ (∀ i < (runTraining valLoss patience 1 numEpochs).2,
          valLoss k ≤ valLoss i)
      ∧ (∀ i, k < i → i < (runTraining valLoss patience 1 numEpochs).2 →
          ¬ valLoss i < valLoss k)
      ∧ (runTraining valLoss patience 1 numEpochs).2 ≤ k + 1 + patience
      ∧ (runTraining valLoss patience 1 numEpochs).2 ≤ numEpochs
      ∧ ((runTraining valLoss patience 1 numEpochs).2 < numEpochs →
          (runTraining valLoss patience 1 numEpochs).2 = k + 1 + patience) := by
  have hrun : epochLoop valLoss patience 1 numEpochs 0 initialEarlyStop
      = ((runTraining valLoss patience 1 numEpochs).1,
         (runTraining valLoss patience 1 numEpochs).2) := by
    rw [Prod.mk.eta]
    rfl
  obtain ⟨h0, hle, hone, hex⟩ := epochLoop_spec valLoss patience hp numEpochs 0
    initialEarlyStop (runTraining valLoss patience 1 numEpochs).1
    (runTraining valLoss patience 1 numEpochs).2 (Or.inl ⟨rfl, rfl⟩) hrun
  obtain ⟨k, hck, hkE, hbest, hmono, hlast, hbound, hstop⟩ := hex (by
    have := hone hn
    omega)
  refine ⟨k, hck, hkE, hbest, hmono, hlast, hbound, by omega, fun hlt => ?_⟩
  have := hstop (by omega)
  omega

/-- Evaluation of C10 at a concrete input: validation losses 10, 5, 7, 7, …
with patience 2 checkpoint epoch 1 (loss 5) and stop after epoch 4
(= 1 + 1 + 2), before the 10-epoch budget. -/
theorem C10_best_checkpoint_witness :
    (runTraining exampleValLoss 2 1 10).1.ckpt = some 1
    ∧ (runTraining exampleValLoss 2 1 10).2 = 4
    ∧ (runTraining exampleValLoss 2 1 10).2 = 1 + 1 + 2 := by
  obtain ⟨k, hck, hkE, hbest, hmono, hlast, hbound, hnum, hstop⟩ :=
    C10_best_checkpoint_and_early_stopping exampleValLoss 2 10
      (by norm_num) (by norm_num)
  have hc : (runTraining exampleValLoss 2 1 10).1.ckpt = some 1 := by decide
  have hE : (runTraining exampleValLoss 2 1 10).2 = 4 := by decide
  have hk : k = 1 := by
    rw [hc] at hck
    exact (Option.some.inj hck).symm
  refine ⟨hc, hE, ?_⟩
  have hfin := hstop (by omega)
  rw [hk] at hfin
  exact hfin

/-- The edge picked by the scheduler is fireable in the current state. -/
theorem pickFireable_fireable {ν α : Type} (st : ν → Option α) :
    ∀ (l : List (Hyperedge ν α)) (e : Hyperedge ν α)
      (rest : List (Hyperedge ν α)),
    pickFireable st l = some (e, rest) → fireableB st e = true := by
  intro l
  induction l with
  | nil =>
    intro e rest h
    exact absurd h (by simp [pickFireable])
  | cons a t ih =>
    intro e rest h
    unfold pickFireable at h
    by_cases hf : fireableB st a = true
    · rw [if_pos hf] at h
      have hpair := Option.some.inj h
      have ha : a = e := congrArg Prod.fst hpair
      exact ha ▸ hf
    · rw [if_neg hf] at h
      cases hm : pickFireable st t with
      | none =>
        rw [hm] at h
        exact absurd h (by simp)
      | some p =>
        obtain ⟨e2, rest2⟩ := p
        rw [hm] at h
        have hpair := Option.some.inj h
        have he : e2 = e := congrArg Prod.fst hpair
        exact he ▸ ih e2 rest2 hm

/-- Soundness of the scheduler: the final state is the replay of the firing
order from the initial state, and every fired hyperedge was fireable - all
its source nodes computed - in the state reached by the firings before it. -/
theorem scheduleAux_spec {ν α : Type} [DecidableEq ν] [Inhabited α] :
    ∀ (fuel : ℕ) (pending : List (Hyperedge ν α)) (st : ν → Option α),
    ((scheduleAux fuel pending st).2
      = (scheduleAux fuel pending st).1.foldl fireEdge st)
    ∧ ∀ (i : ℕ) (e2 : Hyperedge ν α),
        (scheduleAux fuel pending st).1[i]? = some e2 →
        fireableB (((scheduleAux fuel pending st).1.take i).foldl fireEdge st)
          e2 = true := by
  intro fuel
  induction fuel with
  | zero =>
    intro pending st
    refine ⟨rfl, fun i e2 h => ?_⟩
    exact absurd h (by simp [scheduleAux])
  | succ fuel ih =>
    intro pending st
    unfold scheduleAux
    cases hpick : pickFireable st pending with
    | none =>
      refine ⟨rfl, fun i e2 h => ?_⟩
      exact absurd h (by simp)
    | some p =>
      obtain ⟨e, rest⟩ := p
      constructor
      · show (scheduleAux fuel rest (fireEdge st e)).2
          = (e :: (scheduleAux fuel rest (fireEdge st e)).1).foldl fireEdge st
        rw [List.foldl_cons]
        exact (ih rest (fireEdge st e)).1
      · intro i e2 h
        cases i with
        | zero =>
          replace h : (e :: (scheduleAux fuel rest (fireEdge st e)).1)[0]?
              = some e2 := h
          rw [List.getElem?_cons_zero] at h
          have he : e = e2 := Option.some.inj h
          subst he
          show fireableB (((e :: (scheduleAux fuel rest (fireEdge st e)).1).take
              0).foldl fireEdge st) e = true
          rw [List.take_zero, List.foldl_nil]
          exact pickFireable_fireable st pending e rest hpick
        | succ j =>
          replace h : (e :: (scheduleAux fuel rest (fireEdge st e)).1)[j + 1]?
              = some e2 := h
          rw [List.getElem?_cons_succ] at h
          have h2 := (ih rest (fireEdge st e)).2 j e2 h
          show fireableB (((e :: (scheduleAux fuel rest (fireEdge st e)).1).take
              (j + 1)).foldl fireEdge st) e2 = true
          rw [List.take_succ_cons, List.foldl_cons]
          exact h2

/-- Computed nodes stay computed: firing a hyperedge never erases a node's
tensor. -/
theorem fireEdge_preserves_some {ν α : Type} [DecidableEq ν] [Inhabited α]
    (st : ν → Option α) (e : Hyperedge ν α) (n : ν)
    (h : (st n).isSome = true) : ((fireEdge st e) n).isSome = true := by
  unfold fireEdge writeNodes
  generalize e.dst_nodes.zip (e.transform (e.src_nodes.map
    (fun m => (st m).getD default))) = pairs
  induction pairs generalizing st with
  | nil => exact h
  | cons p ps ih =>
    rw [List.foldl_cons]
    apply ih
    by_cases hn : n = p.1
    · simp [hn]
    · simpa [hn] using h

/-- C1 (HDNet/MHDNet modelled from the spec; node_toolkit/node_net.py is not
among the provided sources): an HDNet forward pass evaluates the hyperedges
in a topological order of the induced dataflow graph - every fired hyperedge
is fireable (all of its source nodes computed) in the state produced by the
in-node assignment and the firings before it - and returns the out-node
values, in the order of the out-node list, of the final state reached by
replaying the firing order; MHDNet composes the sub-networks by gluing every
sub-network hyperedge through the global `node_mapping` (identifying each
global node with all sub-network nodes mapped to it) and is exactly the
HDNet forward pass of that glued graph, so its outputs are the glued final
state's values at the out-nodes in out-list order. -/
theorem C1_topological_schedule_and_gluing {γ ν α : Type} [DecidableEq ν]
    [DecidableEq γ] [Inhabited γ] [Inhabited α] (cfg : HDNetCfg γ α)
    (subNetworks : List (String × HDNetCfg ν α))
    (node_mapping : List (γ × String × ν)) (in_nodes out_nodes : List γ)
    (inputs : List α) :
    ((hdForward cfg inputs).2
      = cfg.out_nodes.map
          ((hdForward cfg inputs).1.foldl fireEdge (hdInitState cfg inputs)))
    ∧ (∀ (i : ℕ) (e : Hyperedge γ α), (hdForward cfg inputs).1[i]? = some e →
        fireableB (((hdForward cfg inputs).1.take i).foldl fireEdge
          (hdInitState cfg inputs)) e = true)
    ∧ (mhdForward subNetworks node_mapping in_nodes out_nodes inputs
        = hdForward (mhdGlue subNetworks node_mapping in_nodes out_nodes) inputs)
    ∧ ((mhdForward subNetworks node_mapping in_nodes out_nodes inputs).2
        = out_nodes.map
            ((mhdForward subNetworks node_mapping in_nodes out_nodes inputs).1.foldl
              fireEdge
              (hdInitState (mhdGlue subNetworks node_mapping in_nodes out_nodes)
                inputs))) := by
  have hspec := scheduleAux_spec cfg.hyperedges.length cfg.hyperedges
    (hdInitState cfg inputs)
  have hspec2 := scheduleAux_spec
    (mhdGlue subNetworks node_mapping in_nodes out_nodes).hyperedges.length
    (mhdGlue subNetworks node_mapping in_nodes out_nodes).hyperedges
    (hdInitState (mhdGlue subNetworks node_mapping in_nodes out_nodes) inputs)
  refine ⟨?_, ?_, rfl, ?_⟩
  · show cfg.out_nodes.map
        (scheduleAux cfg.hyperedges.length cfg.hyperedges (hdInitState cfg inputs)).2
      = cfg.out_nodes.map _
    rw [hspec.1]
    rfl
  · intro i e h
    exact hspec.2 i e h
  · show (mhdGlue subNetworks node_mapping in_nodes out_nodes).out_nodes.map
        (scheduleAux _ _ _).2 = out_nodes.map _
    rw [hspec2.1]
    rfl

/-- Evaluation of C1 at a concrete input: one sub-network with a single
hyperedge adding 1, glued through a mapping that identifies its nodes 0 and
1 with global nodes 100 and 101; input 5 at node 100 yields output 6 at node
101, and the single fired hyperedge was fireable on the initial state. -/
theorem C1_topological_schedule_witness :
    (mhdForward [("a", ⟨[⟨[0], [1], fun xs => xs.map (fun x => x + 1)⟩], [0], [1]⟩)]
        [(100, "a", 0), (101, "a", 1)] [100] [101] [(5 : ℕ)]).2
      = [101].map
          ((mhdForward [("a", ⟨[⟨[0], [1], fun xs => xs.map (fun x => x + 1)⟩], [0], [1]⟩)]
              [(100, "a", 0), (101, "a", 1)] [100] [101] [(5 : ℕ)]).1.foldl
            fireEdge
            (hdInitState (mhdGlue
              [("a", ⟨[⟨[0], [1], fun xs => xs.map (fun x => x + 1)⟩], [0], [1]⟩)]
              [(100, "a", 0), (101, "a", 1)] [100] [101]) [(5 : ℕ)]))
    ∧ (mhdForward [("a", ⟨[⟨[0], [1], fun xs => xs.map (fun x => x + 1)⟩], [0], [1]⟩)]
        [(100, "a", 0), (101, "a", 1)] [100] [101] [(5 : ℕ)]).2 = [some 6] := by
  constructor
  · exact (C1_topological_schedule_and_gluing
      (mhdGlue [("a", ⟨[⟨[0], [1], fun xs => xs.map (fun x => x + 1)⟩], [0], [1]⟩)]
        [(100, "a", 0), (101, "a", 1)] [100] [101])
      [("a", ⟨[⟨[0], [1], fun xs => xs.map (fun x => x + 1)⟩], [0], [1]⟩)]
      [(100, "a", 0), (101, "a", 1)] [100] [101] [(5 : ℕ)]).2.2.2
  · rfl

end MHDNodet
